import Mathlib

/-!
Shallow embedding of `src/fuzzy_matcher.py` (class `FuzzyMatcher`).

The two third-party metric libraries the file calls (`textdistance` for
Jaro-Winkler, `rapidfuzz.fuzz` for the two Levenshtein-ratio variants) are
not part of the repository; they are modelled from the specification
(spec 4.1, "Metric semantics").  Scores are modelled as rationals.

The pandas/numpy data plumbing (column selection, the final reshaping of
per-row match tuples into flat output columns, progress reporting) is out
of the modelled core, as the specification states (spec 1 and 6); the core
modelled here is the scorer `get_fuzzy_distance` (src lines 69-105) and the
per-base top-N selection of `calculate_fuzzy_distance` (src lines 107-153).
-/

namespace FuzzyMatcherPy

/-- Characters removed by Python `str.strip()` for the ASCII fragment. -/
def pyIsSpace (c : Char) : Bool :=
  c = ' ' || c = '\t' || c = '\n' || c = '\r' || c = '\x0b' || c = '\x0c'

/-- Python `str.strip()` on a character list: drop whitespace at both ends. -/
def py_strip (l : List Char) : List Char :=
  ((l.dropWhile pyIsSpace).reverse.dropWhile pyIsSpace).reverse

/-- Python `str.upper()` for the ASCII fragment used here. -/
def py_upper (l : List Char) : List Char := l.map Char.toUpper

/-- `str(x).strip().upper()` applied to both inputs of `get_fuzzy_distance`
(src lines 88-89). -/
def normalize_str (s : String) : String := String.mk (py_upper (py_strip s.toList))

/-- The sentinel test of src lines 91 and 94 on an already-normalized string. -/
def is_sentinel (s : String) : Bool :=
  s = "UNKNOWN" || s = "-" || s = "NAN" || s = ""

/-! ### Jaro-Winkler similarity

Modelled from the spec: "standard Jaro-Winkler similarity of the two
normalized strings" (spec 4.1), the metric `textdistance.jaro_winkler`
computes at src line 98.  The match-counting scan is the standard one:
for each position `i` of the first string, in order, the smallest not yet
matched position `j` of the second string carrying the same character and
lying within the search window `|i - j| <= w` is claimed. -/

/-- Character of `s` at index `j` (all uses keep `j` in range). -/
def charAt (s : List Char) (j : Nat) : Char := s.getD j ' '

/-- Search window radius: half the longer length minus one, floored at 0. -/
def search_range (n1 n2 : Nat) : Nat := max n1 n2 / 2 - 1

/-- The in-window, same-character, unclaimed candidate positions of `s2`
scanned for the character at index `i`, in increasing order. -/
def match_candidates (s2 : List Char) (w : Nat) (c : Char) (i : Nat) (used : List Nat) :
    List Nat :=
  (List.range s2.length).filter
    (fun j => decide (i - w ≤ j ∧ j ≤ i + w ∧ charAt s2 j = c ∧ j ∉ used))

/-- Smallest unclaimed position of `s2` in the window around `i` holding
character `c`; `none` when every candidate is claimed or out of window. -/
def find_match (s2 : List Char) (w : Nat) (c : Char) (i : Nat) (used : List Nat) : Option Nat :=
  (match_candidates s2 w c i used).head?

/-- The matching scan over the first string: `rest` is the unprocessed
suffix, `i` its starting index, `used` the claimed positions of `s2`. -/
def scan_matches (s2 : List Char) (w : Nat) : List Char → Nat → List Nat → List (Nat × Nat)
  | [], _, _ => []
  | c :: rest, i, used =>
    match find_match s2 w c i used with
    | some j => (i, j) :: scan_matches s2 w rest (i + 1) (j :: used)
    | none => scan_matches s2 w rest (i + 1) used

/-- All matched index pairs of the Jaro scan of `s1` against `s2`. -/
def jaro_pairs (s1 s2 : List Char) : List (Nat × Nat) :=
  scan_matches s2 (search_range s1.length s2.length) s1 0 []

/-- Positions in `l` holding character `c`, offset by `i` (so
`occAt s 0 c` lists the indices of `c` in `s`, increasing). -/
def occAt : List Char → Nat → Char → List Nat
  | [], _, _ => []
  | a :: l, i, c => if a = c then i :: occAt l (i + 1) c else occAt l (i + 1) c

/-- Canonical window matching of two increasing position lists: walk both
lists in step, matching the front positions when they lie within `w` of
each other and discarding whichever front position is too far behind the
other.  The greedy scan restricted to the positions of one character is
proved below to produce exactly this matching; this formulation makes the
symmetry of the scan in its two strings provable. -/
def tp_match (w : Nat) : List Nat → List Nat → List (Nat × Nat)
  | [], _ => []
  | _, [] => []
  | p :: ps, q :: qs =>
    if q + w < p then tp_match w (p :: ps) qs
    else if q ≤ p + w then (p, q) :: tp_match w ps qs
    else tp_match w ps (q :: qs)
termination_by ps qs => ps.length + qs.length

/-- Scan-state invariant tying the claimed-position set `used` to a
per-character view `reach`: for each character `c`, `reach c` lists, in
increasing order, the unclaimed positions of `s2` holding `c` that are
still reachable by a scan standing at index `i` or beyond. -/
def ReachInv (s2 : List Char) (w i : Nat) (used : List Nat) (reach : Char → List Nat) : Prop :=
  ∀ c, List.Pairwise (· < ·) (reach c) ∧
    (∀ q ∈ reach c, q < s2.length ∧ charAt s2 q = c ∧ q ∉ used) ∧
    (∀ q, q < s2.length → charAt s2 q = c → q ∉ used → i ≤ q + w → q ∈ reach c)

/-- Matched positions of the first string, in increasing order (the walk
over the first flag array in the transposition count). -/
def flagged_fst (s1 s2 : List Char) : List Nat :=
  (List.range s1.length).filter (fun i => (jaro_pairs s1 s2).any (fun p => decide (p.1 = i)))

/-- Matched positions of the second string, in increasing order (the walk
over the second flag array in the transposition count). -/
def flagged_snd (s1 s2 : List Char) : List Nat :=
  (List.range s2.length).filter (fun j => (jaro_pairs s1 s2).any (fun p => decide (p.2 = j)))

/-- Number of matching characters `m` of the Jaro similarity. -/
def jaro_m (s1 s2 : List Char) : Nat := (flagged_fst s1 s2).length

/-- Positions at which two equal-length character sequences disagree. -/
def mismatch_count (l1 l2 : List Char) : Nat :=
  ((l1.zip l2).filter (fun p => decide (p.1 ≠ p.2))).length

/-- Transposition count `t`: half the number of disagreeing positions
between the matched characters of both sides, each read in order. -/
def jaro_t (s1 s2 : List Char) : Nat :=
  mismatch_count ((flagged_fst s1 s2).map (charAt s1)) ((flagged_snd s1 s2).map (charAt s2)) / 2

/-- Jaro similarity: `(m/n1 + m/n2 + (m-t)/m) / 3`, and `0` when either
string is empty or no characters match. -/
def jaro_sim (s1 s2 : List Char) : ℚ :=
  if s1.length = 0 ∨ s2.length = 0 then 0
  else
    let m := jaro_m s1 s2
    if m = 0 then 0
    else ((m : ℚ) / s1.length + (m : ℚ) / s2.length + ((m : ℚ) - jaro_t s1 s2) / m) / 3

/-- Length of the longest common leading segment of two strings. -/
def shared_lead_len : List Char → List Char → Nat
  | a :: xs, b :: ys => if a = b then shared_lead_len xs ys + 1 else 0
  | _, _ => 0

/-- Jaro-Winkler similarity: the Winkler boost rewards a common leading
segment of up to 4 characters, weight 0.1, only when the Jaro weight
exceeds 0.7. -/
def jaro_winkler_sim (s1 s2 : List Char) : ℚ :=
  let weight := jaro_sim s1 s2
  if 7 / 10 < weight then
    weight + (min (shared_lead_len s1 s2) 4 : ℚ) * (1 / 10) * (1 - weight)
  else weight

/-! ### Levenshtein-ratio similarities

Modelled from the spec: `lev-ratio` is "whole-string Levenshtein-ratio
similarity (edit distance normalized by total length, converted to a
similarity)" — `rapidfuzz.fuzz.ratio / 100` at src line 102, whose edit
distance is the insert/delete distance; `lev-partial` is "the
best-matching-substring edit-similarity between the shorter and longer
string" — `rapidfuzz.fuzz.partial_ratio / 100` at src line 100. -/

/-- Insert/delete edit distance between two character lists. -/
def indel_dist : List Char → List Char → Nat
  | [], ys => ys.length
  | xs, [] => xs.length
  | x :: xs, y :: ys =>
    if x = y then indel_dist xs ys
    else 1 + min (indel_dist xs (y :: ys)) (indel_dist (x :: xs) ys)
termination_by xs ys => xs.length + ys.length

/-- Whole-string ratio similarity in `[0, 1]`. -/
def ratio_sim (s1 s2 : List Char) : ℚ :=
  if s1.length + s2.length = 0 then 1
  else 1 - (indel_dist s1 s2 : ℚ) / ((s1.length : ℚ) + (s2.length : ℚ))

/-- Every contiguous substring of a list. -/
def all_substrings (l : List Char) : List (List Char) :=
  (l.tails.map List.inits).flatten

/-- Best ratio similarity of the shorter string against any contiguous
substring of the longer. -/
def best_substring_sim (s1 s2 : List Char) : ℚ :=
  let shorter := if s1.length ≤ s2.length then s1 else s2
  let longer := if s1.length ≤ s2.length then s2 else s1
  ((all_substrings longer).map (fun t => ratio_sim shorter t)).foldl max 0

/-- Rounding to two decimal places, the `round(x, 2)` of src lines 98-102
(spec 4.1 accepts either half-up or half-even at the exact midpoints). -/
def round2 (x : ℚ) : ℚ := ((round (x * 100) : ℤ) : ℚ) / 100

/-! ### The scorer `get_fuzzy_distance` (src lines 69-105) -/

/-- The error channel of the scorer: the `NotImplementedError` raised at
src line 105 for an unrecognized metric name. -/
inductive MatcherError where
  | notSupported (msg : String)
deriving DecidableEq, Repr

/-- The message of src line 104 (quotes inside the list elided). -/
def metric_error_msg : String :=
  "Please use available metric from given list -[jaro-winkler, lev-partial, lev-ratio]."

/-- `get_fuzzy_distance` (src lines 88-105): normalize both inputs, return
0.0 when either is a sentinel, otherwise dispatch on the metric name and
round the similarity to two decimals; unknown names raise. -/
def get_fuzzy_distance (string_1 string_2 metric : String) : Except MatcherError ℚ :=
  let s1 := normalize_str string_1
  let s2 := normalize_str string_2
  if is_sentinel s1 then Except.ok 0
  else if is_sentinel s2 then Except.ok 0
  else if metric = "jaro-winkler" then Except.ok (round2 (jaro_winkler_sim s1.toList s2.toList))
  else if metric = "lev-partial" then Except.ok (round2 (best_substring_sim s1.toList s2.toList))
  else if metric = "lev-ratio" then Except.ok (round2 (ratio_sim s1.toList s2.toList))
  else Except.error (MatcherError.notSupported metric_error_msg)

/-! ### The memo cache (src lines 69, `functools.lru_cache`)

`lru_cache` hashes the raw call arguments; normalization happens inside
the function body, after the lookup.  The cache stores only successful
results (a raised exception is not cached).  Eviction at the 100000-entry
bound is not modelled. -/

instance {ε β : Type} [DecidableEq ε] [DecidableEq β] : DecidableEq (Except ε β) := fun a b =>
  match a, b with
  | Except.ok x, Except.ok y =>
    if h : x = y then isTrue (by rw [h]) else isFalse (by simp [h])
  | Except.error e, Except.error f =>
    if h : e = f then isTrue (by rw [h]) else isFalse (by simp [h])
  | Except.ok _, Except.error _ => isFalse (by simp)
  | Except.error _, Except.ok _ => isFalse (by simp)

/-- A cache entry key: the raw argument triple of a call. -/
abbrev ScoreKey := String × String × String

/-- The memo table. -/
abbrev ScoreCache := List (ScoreKey × ℚ)

/-- First stored value for `key`, if any. -/
def cache_lookup (key : ScoreKey) : ScoreCache → Option ℚ
  | [] => none
  | (k, v) :: rest => if k = key then some v else cache_lookup key rest

/-- One call of the memoized scorer: hit returns the stored value and
leaves the table unchanged; a miss computes, and stores the result when
the computation succeeds. -/
def get_fuzzy_distance_cached (cache : ScoreCache) (string_1 string_2 metric : String) :
    Except MatcherError ℚ × ScoreCache :=
  match cache_lookup (string_1, string_2, metric) cache with
  | some v => (Except.ok v, cache)
  | none =>
    match get_fuzzy_distance string_1 string_2 metric with
    | Except.ok v => (Except.ok v, ((string_1, string_2, metric), v) :: cache)
    | Except.error e => (Except.error e, cache)

/-! ### Construction (src lines 27-67)

A config already column-selected: each row of the base and comparator
data is an (identifier, text) pair.  `__init__` copies the data, drops
duplicate rows keeping the first occurrence (pandas `drop_duplicates`),
and stores `top_n` and `metric` unvalidated — the body contains no raise
and no check of either value. -/

structure FuzzyConfig (α : Type) where
  base_data : List (α × String)
  comparator_data : List (α × String)
  top_n : Int
  metric : String

structure FuzzyMatcher (α : Type) where
  base_data : List (α × String)
  comparator_data : List (α × String)
  top_n : Int
  metric : String

/-- `drop_duplicates` keeping first occurrences; `seen` accumulates rows
already emitted. -/
def drop_duplicates_aux {β : Type} [DecidableEq β] : List β → List β → List β
  | _, [] => []
  | seen, x :: xs =>
    if x ∈ seen then drop_duplicates_aux seen xs
    else x :: drop_duplicates_aux (x :: seen) xs

/-- pandas `drop_duplicates` (keep = first), src lines 63-64. -/
def drop_duplicates {β : Type} [DecidableEq β] (l : List β) : List β :=
  drop_duplicates_aux [] l

/-- `FuzzyMatcher.__init__` (src lines 27-67): deduplicate both tables and
store the run parameters.  No validation is performed and nothing can
fail; the per-instance score cache starts empty (`cache_clear`). -/
def init_fuzzy_matcher {α : Type} [DecidableEq α] (config : FuzzyConfig α) : FuzzyMatcher α :=
  { base_data := drop_duplicates config.base_data
    comparator_data := drop_duplicates config.comparator_data
    top_n := config.top_n
    metric := config.metric }

/-! ### Top-N selection (src lines 107-153)

`np.argsort(score_list)[::-1][:top_n]`: numpy argsort ascending —
deterministically a stable sort for the array sizes at issue (numpy runs
plain insertion sort below its small-array cutoff), modelled as the unique
permutation ordered by (score, index) — then reversed and sliced. -/

/-- The ascending argsort order on indices into `xs`: by value, ties by
index (stability). -/
def score_le (xs : List ℚ) (i j : Nat) : Prop :=
  xs.getD i 0 < xs.getD j 0 ∨ (xs.getD i 0 = xs.getD j 0 ∧ i ≤ j)

instance (xs : List ℚ) (i j : Nat) : Decidable (score_le xs i j) :=
  inferInstanceAs (Decidable (_ ∨ _))

instance (xs : List ℚ) : IsTotal Nat (score_le xs) where
  total i j := by
    rcases lt_trichotomy (xs.getD i 0) (xs.getD j 0) with h | h | h
    · exact Or.inl (Or.inl h)
    · rcases Nat.le_total i j with hij | hij
      · exact Or.inl (Or.inr ⟨h, hij⟩)
      · exact Or.inr (Or.inr ⟨h.symm, hij⟩)
    · exact Or.inr (Or.inl h)

instance (xs : List ℚ) : IsTrans Nat (score_le xs) where
  trans i j k hij hjk := by
    rcases hij with h1 | ⟨e1, l1⟩
    · rcases hjk with h2 | ⟨e2, _⟩
      · exact Or.inl (h1.trans h2)
      · exact Or.inl (e2 ▸ h1)
    · rcases hjk with h2 | ⟨e2, l2⟩
      · exact Or.inl (e1 ▸ h2)
      · exact Or.inr ⟨e1.trans e2, l1.trans l2⟩

/-- `np.argsort` ascending, stable. -/
def stable_argsort_asc (xs : List ℚ) : List Nat :=
  List.insertionSort (score_le xs) (List.range xs.length)

/-- Python slicing `l[:n]`, including the negative-`n` convention that
drops `|n|` trailing elements. -/
def py_slice {β : Type} (n : Int) (l : List β) : List β :=
  if 0 ≤ n then l.take n.toNat else l.take (l.length - n.natAbs)

/-- `np.argsort(score_list)[::-1][:top_n]` (src line 134). -/
def select_top_idx (scores : List ℚ) (top_n : Int) : List Nat :=
  py_slice top_n (stable_argsort_asc scores).reverse

/-- Indexing the three parallel arrays (id, text, score) at `i`
(src lines 142-144); indices produced by `select_top_idx` are in range. -/
def triple_at {α : Type} [Inhabited α] (comp : List (α × String)) (scores : List ℚ)
    (i : Nat) : α × String × ℚ :=
  ((comp.getD i default).1, (comp.getD i default).2, scores.getD i 0)

/-- Effectful map over a list in the `Except` monad, stopping at the first
raised error (the Python loop raises out of the whole computation). -/
def except_map {ε β γ : Type} (f : β → Except ε γ) : List β → Except ε (List γ)
  | [] => Except.ok []
  | x :: xs =>
    match f x with
    | Except.error e => Except.error e
    | Except.ok y =>
      match except_map f xs with
      | Except.error e => Except.error e
      | Except.ok ys => Except.ok (y :: ys)

/-- The inner loop body of `calculate_fuzzy_distance` for one base row
(src lines 121-151): score the text against every comparator row, select
the top indices, and read the matched triples off the parallel arrays. -/
def matches_for {α : Type} [Inhabited α] (fm : FuzzyMatcher α) (base_text : String) :
    Except MatcherError (List (α × String × ℚ)) :=
  match except_map (fun c => get_fuzzy_distance base_text c.2 fm.metric) fm.comparator_data with
  | Except.error e => Except.error e
  | Except.ok scores =>
    Except.ok ((select_top_idx scores fm.top_n).map (triple_at fm.comparator_data scores))

/-- `calculate_fuzzy_distance` (src lines 107-153) up to the assembled
`output_list`: one (base row, matches) entry per base row, in base order.
The values are those of the memoized scorer: the cache only ever stores
the scorer output for the stored key, so memoization never changes a
value (spec 3, ScoreCacheKey invariant). -/
def calculate_fuzzy_distance {α : Type} [Inhabited α] (fm : FuzzyMatcher α) :
    Except MatcherError (List ((α × String) × List (α × String × ℚ))) :=
  except_map (fun b =>
    match matches_for fm b.2 with
    | Except.error e => Except.error e
    | Except.ok ms => Except.ok (b, ms)) fm.base_data

/-! ### Concrete configurations used in the end-to-end checks -/

/-- The end-to-end example of spec 8: base `[(1, "Aspirin")]`, comparator
`[(10, "ASPIRIN"), (11, "Tylenol"), (12, "aspirin ")]`, Jaro-Winkler,
`top_n = 2`. -/
def example_config : FuzzyConfig Nat :=
  { base_data := [(1, "Aspirin")]
    comparator_data := [(10, "ASPIRIN"), (11, "Tylenol"), (12, "aspirin ")]
    top_n := 2
    metric := "jaro-winkler" }

/-- A configuration whose metric name is not one of the three supported
variants. -/
def bad_metric_config : FuzzyConfig Nat :=
  { base_data := [(1, "Aspirin")]
    comparator_data := [(10, "ASPIRIN")]
    top_n := 2
    metric := "unknown-metric" }

/-- A configuration with `top_n = 0`. -/
def zero_top_n_config : FuzzyConfig Nat :=
  { base_data := [(1, "Aspirin")]
    comparator_data := [(10, "ASPIRIN"), (11, "Tylenol")]
    top_n := 0
    metric := "jaro-winkler" }

/-! ## Theorems -/

/-! ### The sentinel short-circuit of the scorer (src lines 91-95) -/

/-- A sentinel in first position returns 0.0 before the metric dispatch. -/
theorem get_sentinel_fst (s1 s2 m : String) (h : is_sentinel (normalize_str s1) = true) :
    get_fuzzy_distance s1 s2 m = Except.ok 0 := by
  unfold get_fuzzy_distance
  simp [h]

/-- A sentinel in second position returns 0.0 before the metric dispatch. -/
theorem get_sentinel_snd (s1 s2 m : String) (h : is_sentinel (normalize_str s2) = true) :
    get_fuzzy_distance s1 s2 m = Except.ok 0 := by
  unfold get_fuzzy_distance
  by_cases h1 : is_sentinel (normalize_str s1) <;> simp [h1, h]

/-- C7: an input that normalizes to a sentinel value scores exactly 0.0
against any other string, in either argument position, under every metric
name, the dispatch on the metric never being reached. -/
theorem sentinel_scores_zero (s other metric : String)
    (h : is_sentinel (normalize_str s) = true) :
    get_fuzzy_distance s other metric = Except.ok 0 ∧
      get_fuzzy_distance other s metric = Except.ok 0 :=
  ⟨get_sentinel_fst s other metric h, get_sentinel_snd other s metric h⟩

/-- Witness for C7 at the concrete input `" nan "` against `"Tylenol"`. -/
theorem sentinel_scores_zero_witness :
    is_sentinel (normalize_str " nan ") = true ∧
      get_fuzzy_distance " nan " "Tylenol" "lev-ratio" = Except.ok 0 ∧
      get_fuzzy_distance "Tylenol" " nan " "lev-ratio" = Except.ok 0 :=
  ⟨by decide, sentinel_scores_zero " nan " "Tylenol" "lev-ratio" (by decide)⟩

/-- C9: the sentinel short-circuit takes precedence over metric
validation — when either input normalizes to a sentinel, the scorer
returns 0.0 whatever the metric string is, so the unsupported-metric
branch is unreachable there. -/
theorem sentinel_shadows_metric_check (s1 s2 metric : String)
    (h : is_sentinel (normalize_str s1) = true ∨ is_sentinel (normalize_str s2) = true) :
    get_fuzzy_distance s1 s2 metric = Except.ok 0 := by
  rcases h with h | h
  · exact get_sentinel_fst s1 s2 metric h
  · exact get_sentinel_snd s1 s2 metric h

/-- Witness for C9: a sentinel first argument with an unsupported metric
name still yields 0.0 rather than the unsupported-metric error. -/
theorem sentinel_shadows_metric_check_witness :
    (is_sentinel (normalize_str "-") = true ∨ is_sentinel (normalize_str "ADVIL") = true) ∧
      get_fuzzy_distance "-" "ADVIL" "not-a-metric" = Except.ok 0 :=
  ⟨Or.inl (by decide), sentinel_shadows_metric_check "-" "ADVIL" "not-a-metric" (Or.inl (by decide))⟩

/-! ### Error handling (C2, C3) -/

/-- Counterexample to C2 as stated: constructing the engine with the
unsupported metric name does not fail — `__init__` returns an ordinary
matcher holding the bad name — and the `NotImplementedError` only arises
later, from the scoring call inside the matching run. -/
theorem unsupported_metric_not_checked_at_init :
    init_fuzzy_matcher bad_metric_config =
      { base_data := [(1, "Aspirin")], comparator_data := [(10, "ASPIRIN")],
        top_n := 2, metric := "unknown-metric" } ∧
      calculate_fuzzy_distance (init_fuzzy_matcher bad_metric_config) =
        Except.error (MatcherError.notSupported metric_error_msg) := by
  constructor
  · rfl
  · rfl

/-- C2 amended: the unsupported-metric failure is lazy and per-call — any
scoring call whose two inputs are not sentinels and whose metric is none
of the three supported names raises it. -/
theorem unsupported_metric_raises_per_call (s1 s2 m : String)
    (h1 : is_sentinel (normalize_str s1) = false)
    (h2 : is_sentinel (normalize_str s2) = false)
    (hm1 : m ≠ "jaro-winkler") (hm2 : m ≠ "lev-partial") (hm3 : m ≠ "lev-ratio") :
    get_fuzzy_distance s1 s2 m = Except.error (MatcherError.notSupported metric_error_msg) := by
  unfold get_fuzzy_distance
  simp [h1, h2, hm1, hm2, hm3]

/-- Witness for the amended C2 at a concrete call. -/
theorem unsupported_metric_raises_per_call_witness :
    is_sentinel (normalize_str "ADVIL") = false ∧
      get_fuzzy_distance "ADVIL" "ASPIRIN" "unknown-metric" =
        Except.error (MatcherError.notSupported metric_error_msg) :=
  ⟨by decide, unsupported_metric_raises_per_call "ADVIL" "ASPIRIN" "unknown-metric"
    (by decide) (by decide) (by decide) (by decide) (by decide)⟩

/-! ### The memo cache is keyed on raw, not normalized, arguments (C6) -/

/-- Counterexample to C6 as stated: `"Aspirin"` and `"ASPIRIN "` normalize
to the same string, yet after a first call with raw argument `"Aspirin"`
the cache holds no entry under the raw key of a call with `"ASPIRIN "` —
the second call is a miss, not a hit: `lru_cache` hashes the raw call
arguments, and normalization happens inside the function body. -/
theorem cache_key_is_raw_not_normalized :
    normalize_str "Aspirin" = normalize_str "ASPIRIN " ∧
      cache_lookup ("ASPIRIN ", "B", "jaro-winkler")
        (get_fuzzy_distance_cached [] "Aspirin" "B" "jaro-winkler").2 = none := by
  constructor
  · rfl
  · rfl

/-- C6 amended: memoization is keyed by the raw argument triple — after a
successful call, repeating the call with the same raw arguments is a cache
hit that returns the stored value and leaves the table unchanged. -/
theorem cache_hit_on_raw_key (c : ScoreCache) (s1 s2 m : String) (v : ℚ) (c2 : ScoreCache)
    (h : get_fuzzy_distance_cached c s1 s2 m = (Except.ok v, c2)) :
    get_fuzzy_distance_cached c2 s1 s2 m = (Except.ok v, c2) := by
  unfold get_fuzzy_distance_cached at h ⊢
  cases hl : cache_lookup (s1, s2, m) c with
  | some u =>
    rw [hl] at h
    injection h with h1 h2
    injection h1 with h1
    subst h1; subst h2
    rw [hl]
  | none =>
    rw [hl] at h
    cases hg : get_fuzzy_distance s1 s2 m with
    | ok w =>
      rw [hg] at h
      injection h with h1 h2
      injection h1 with h1
      subst h1; subst h2
      simp [cache_lookup]
    | error e =>
      rw [hg] at h
      injection h with h1 _
      exact absurd h1 (by simp)

attribute [local semireducible] Rat.add Rat.mul Rat.inv Rat.sub in
/-- Witness for the amended C6: the concrete first call stores 0 under the
raw key, and the repeated call hits it. -/
theorem cache_hit_on_raw_key_witness :
    get_fuzzy_distance_cached [(("Aspirin", "B", "jaro-winkler"), 0)]
        "Aspirin" "B" "jaro-winkler" =
      (Except.ok 0, [(("Aspirin", "B", "jaro-winkler"), 0)]) :=
  cache_hit_on_raw_key [] "Aspirin" "B" "jaro-winkler" 0
    [(("Aspirin", "B", "jaro-winkler"), 0)] (by rfl)

/-! ### Helper lemmas for the matching engine -/

theorem except_map_ok_length {ε β γ : Type} (f : β → Except ε γ) :
    ∀ (l : List β) (ys : List γ), except_map f l = Except.ok ys → ys.length = l.length := by
  intro l
  induction l with
  | nil =>
    intro ys h
    unfold except_map at h
    injection h with h
    subst h; rfl
  | cons x xs ih =>
    intro ys h
    unfold except_map at h
    cases hf : f x with
    | error e => rw [hf] at h; exact absurd h (by simp)
    | ok y =>
      rw [hf] at h
      cases he : except_map f xs with
      | error e => rw [he] at h; exact absurd h (by simp)
      | ok zs =>
        rw [he] at h
        injection h with h
        subst h
        simpa using ih zs he

theorem except_map_ok_mem {ε β γ : Type} (f : β → Except ε γ) :
    ∀ (l : List β) (ys : List γ), except_map f l = Except.ok ys →
      ∀ y ∈ ys, ∃ x ∈ l, f x = Except.ok y := by
  intro l
  induction l with
  | nil =>
    intro ys h y hy
    unfold except_map at h
    injection h with h
    subst h
    exact absurd hy (by simp)
  | cons x xs ih =>
    intro ys h y hy
    unfold except_map at h
    cases hf : f x with
    | error e => rw [hf] at h; exact absurd h (by simp)
    | ok z =>
      rw [hf] at h
      cases he : except_map f xs with
      | error e => rw [he] at h; exact absurd h (by simp)
      | ok zs =>
        rw [he] at h
        injection h with h
        subst h
        rcases List.mem_cons.mp hy with hy | hy
        · exact ⟨x, List.mem_cons_self x xs, hy ▸ hf⟩
        · obtain ⟨x', hx', hfx'⟩ := ih zs he y hy
          exact ⟨x', List.mem_cons_of_mem x hx', hfx'⟩

theorem except_map_ok_of_forall {ε β γ : Type} (f : β → Except ε γ) (g : β → γ) :
    ∀ l : List β, (∀ x ∈ l, f x = Except.ok (g x)) → except_map f l = Except.ok (l.map g) := by
  intro l
  induction l with
  | nil => intro _; rfl
  | cons x xs ih =>
    intro h
    unfold except_map
    rw [h x (List.mem_cons_self x xs), ih (fun x' hx' => h x' (List.mem_cons_of_mem x hx'))]
    rfl

theorem except_map_ok_exists {ε β γ : Type} (f : β → Except ε γ) :
    ∀ l : List β, (∀ x ∈ l, ∃ v, f x = Except.ok v) → ∃ ys, except_map f l = Except.ok ys := by
  intro l
  induction l with
  | nil => intro _; exact ⟨[], rfl⟩
  | cons x xs ih =>
    intro h
    obtain ⟨v, hv⟩ := h x (List.mem_cons_self x xs)
    obtain ⟨ys, hys⟩ := ih (fun x' hx' => h x' (List.mem_cons_of_mem x hx'))
    refine ⟨v :: ys, ?_⟩
    unfold except_map
    rw [hv, hys]

/-- The Jaro-Winkler metric name always scores successfully. -/
theorem get_jw_ok (s t : String) :
    ∃ v, get_fuzzy_distance s t "jaro-winkler" = Except.ok v := by
  unfold get_fuzzy_distance
  by_cases h1 : is_sentinel (normalize_str s) <;> by_cases h2 : is_sentinel (normalize_str t) <;>
    simp [h1, h2]

/-! ### top_n is not validated at construction (C3) -/

/-- Counterexample to C3 as stated: with `top_n = 0` the engine is
constructed and run without any error — no `InvalidTopN` exists anywhere
in the code — and every base row simply receives an empty match list. -/
theorem zero_top_n_not_rejected :
    calculate_fuzzy_distance (init_fuzzy_matcher zero_top_n_config) =
      Except.ok [((1, "Aspirin"), [])] := by
  rfl

/-- C3 amended: construction performs no validation of `top_n`; a run
with `top_n = 0` completes normally, emitting an empty match list for
every (deduplicated) base row instead of raising anything. -/
theorem zero_top_n_runs_with_empty_matches {α : Type} [DecidableEq α] [Inhabited α]
    (base comp : List (α × String)) :
    calculate_fuzzy_distance (init_fuzzy_matcher
      { base_data := base, comparator_data := comp, top_n := 0, metric := "jaro-winkler" }) =
      Except.ok ((drop_duplicates base).map (fun b => (b, []))) := by
  unfold calculate_fuzzy_distance init_fuzzy_matcher
  apply except_map_ok_of_forall
  intro b _
  have hm : matches_for (α := α)
      { base_data := drop_duplicates base, comparator_data := drop_duplicates comp,
        top_n := 0, metric := "jaro-winkler" } b.2 = Except.ok [] := by
    unfold matches_for
    obtain ⟨scores, hs⟩ := except_map_ok_exists _ (drop_duplicates comp)
      (fun c _ => get_jw_ok b.2 c.2)
    rw [hs]
    simp [select_top_idx, py_slice]
  rw [hm]

/-! ### The top-N selection: length and ordering (C1, C4, C5) -/

theorem stable_argsort_length (xs : List ℚ) : (stable_argsort_asc xs).length = xs.length := by
  unfold stable_argsort_asc
  rw [(List.perm_insertionSort (score_le xs) (List.range xs.length)).length_eq,
    List.length_range]

theorem stable_argsort_sorted (xs : List ℚ) :
    List.Sorted (score_le xs) (stable_argsort_asc xs) :=
  List.sorted_insertionSort (score_le xs) (List.range xs.length)

theorem py_slice_sublist {β : Type} (n : Int) (l : List β) : (py_slice n l).Sublist l := by
  unfold py_slice
  split <;> exact List.take_sublist _ _

theorem py_slice_length_nonneg {β : Type} (n : Int) (l : List β) (hn : 0 ≤ n) :
    (py_slice n l).length = min n.toNat l.length := by
  unfold py_slice
  rw [if_pos hn, List.length_take]

theorem select_top_idx_length (scores : List ℚ) (n : Int) (hn : 0 ≤ n) :
    (select_top_idx scores n).length = min n.toNat scores.length := by
  unfold select_top_idx
  rw [py_slice_length_nonneg _ _ hn, List.length_reverse, stable_argsort_length]

theorem select_top_idx_sorted (scores : List ℚ) (n : Int) :
    List.Pairwise (fun i j => score_le scores j i) (select_top_idx scores n) := by
  have h1 : List.Pairwise (fun i j => score_le scores j i) (stable_argsort_asc scores).reverse := by
    rw [List.pairwise_reverse]
    exact stable_argsort_sorted scores
  exact h1.sublist (py_slice_sublist _ _)

/-- Shape of a row extracted from a successful run: it came from a base
row `b`, and its match list is the top-index selection mapped over the
parallel arrays for some successfully computed score list. -/
theorem calculate_row_shape {α : Type} [Inhabited α] (fm : FuzzyMatcher α)
    (rows : List ((α × String) × List (α × String × ℚ)))
    (h : calculate_fuzzy_distance fm = Except.ok rows) :
    ∀ r ∈ rows, ∃ b ∈ fm.base_data, ∃ scores,
      except_map (fun c => get_fuzzy_distance b.2 c.2 fm.metric) fm.comparator_data =
        Except.ok scores ∧
      r = (b, (select_top_idx scores fm.top_n).map (triple_at fm.comparator_data scores)) := by
  intro r hr
  obtain ⟨b, hb, hfb⟩ := except_map_ok_mem _ _ _ h r hr
  cases hmf : matches_for fm b.2 with
  | error e => rw [hmf] at hfb; exact absurd hfb (by simp)
  | ok ms =>
    rw [hmf] at hfb
    injection hfb with hfb
    unfold matches_for at hmf
    cases hsc : except_map (fun c => get_fuzzy_distance b.2 c.2 fm.metric) fm.comparator_data with
    | error e => rw [hsc] at hmf; exact absurd hmf (by simp)
    | ok scores =>
      rw [hsc] at hmf
      injection hmf with hmf
      refine ⟨b, hb, scores, hsc, ?_⟩
      rw [← hfb, hmf]

/-- C4: for every base row, the emitted match list holds exactly
`min top_n k` triples, `k` the comparator row count — all of `top_n` when
enough comparator rows exist, all `k` rows and no padding otherwise. -/
theorem match_list_length_min {α : Type} [Inhabited α] (fm : FuzzyMatcher α)
    (rows : List ((α × String) × List (α × String × ℚ)))
    (hN : 1 ≤ fm.top_n) (h : calculate_fuzzy_distance fm = Except.ok rows) :
    ∀ r ∈ rows, r.2.length = min fm.top_n.toNat fm.comparator_data.length := by
  intro r hr
  obtain ⟨b, _, scores, hsc, hr2⟩ := calculate_row_shape fm rows h r hr
  rw [hr2]
  have hlen : scores.length = fm.comparator_data.length := except_map_ok_length _ _ _ hsc
  rw [List.length_map, select_top_idx_length _ _ (le_trans (by norm_num) hN), hlen]

attribute [local semireducible] Rat.add Rat.mul Rat.inv Rat.sub in
/-- Witness for C4 on the end-to-end example: top_n = 2 of 3 comparator
rows gives exactly 2 triples. -/
theorem match_list_length_min_witness :
    (1 : Int) ≤ (init_fuzzy_matcher example_config).top_n ∧
      ([((12 : Nat), "aspirin ", (1 : ℚ)), (10, "ASPIRIN", 1)] : List (Nat × String × ℚ)).length =
        min (init_fuzzy_matcher example_config).top_n.toNat
          (init_fuzzy_matcher example_config).comparator_data.length :=
  ⟨by decide, match_list_length_min (init_fuzzy_matcher example_config)
    [((1, "Aspirin"), [(12, "aspirin ", 1), (10, "ASPIRIN", 1)])] (by decide) (by decide)
    ((1, "Aspirin"), [(12, "aspirin ", 1), (10, "ASPIRIN", 1)]) (by simp)⟩

/-- C5: within every emitted match list, the similarity scores are
non-increasing from the first triple to the last. -/
theorem match_scores_non_increasing {α : Type} [Inhabited α] (fm : FuzzyMatcher α)
    (rows : List ((α × String) × List (α × String × ℚ)))
    (h : calculate_fuzzy_distance fm = Except.ok rows) :
    ∀ r ∈ rows, List.Pairwise (fun a b => b.2.2 ≤ a.2.2) r.2 := by
  intro r hr
  obtain ⟨b, _, scores, _, hr2⟩ := calculate_row_shape fm rows h r hr
  rw [hr2]
  refine List.Pairwise.map _ ?_ (select_top_idx_sorted scores fm.top_n)
  intro i j hij
  show scores.getD j 0 ≤ scores.getD i 0
  rcases hij with hlt | ⟨heq, _⟩
  · exact le_of_lt hlt
  · exact le_of_eq heq

attribute [local semireducible] Rat.add Rat.mul Rat.inv Rat.sub in
/-- Witness for C5 on the end-to-end example: the two selected scores are
1 and 1, a non-increasing sequence. -/
theorem match_scores_non_increasing_witness :
    List.Pairwise (fun (a b : Nat × String × ℚ) => b.2.2 ≤ a.2.2)
      [((12 : Nat), "aspirin ", (1 : ℚ)), (10, "ASPIRIN", 1)] :=
  match_scores_non_increasing (init_fuzzy_matcher example_config)
    [((1, "Aspirin"), [(12, "aspirin ", 1), (10, "ASPIRIN", 1)])] (by decide)
    ((1, "Aspirin"), [(12, "aspirin ", 1), (10, "ASPIRIN", 1)]) (by simp)

attribute [local semireducible] Rat.add Rat.mul Rat.inv Rat.sub in
/-- Counterexample to C1 as stated: on the end-to-end example the two
1.00-scoring comparator rows are NOT listed in their input order — the
match ids are [12, 10], not [10, 12]: reversing the ascending argsort
reverses the relative order of equal scorers. -/
theorem example_ties_not_in_input_order :
    ¬ ((calculate_fuzzy_distance (init_fuzzy_matcher example_config)).map
        (fun rows => rows.map (fun r => r.2.map (fun t => t.1))) =
      Except.ok [[10, 12]]) := by
  decide

attribute [local semireducible] Rat.add Rat.mul Rat.inv Rat.sub in
/-- C1 amended: the selection is a reversed stable ascending argsort, so
within a result, equal-scoring comparator entries appear in REVERSED
input order (position earlier in the result implies comparator index
greater or equal on ties); on the example the result lists id 12 before
id 10, both at score 1.00, ahead of id 11. -/
theorem top_n_ties_reverse_input_order :
    (∀ (scores : List ℚ) (n : Int),
        List.Pairwise (fun i j => scores.getD j 0 < scores.getD i 0 ∨
          (scores.getD j 0 = scores.getD i 0 ∧ j ≤ i)) (select_top_idx scores n)) ∧
      calculate_fuzzy_distance (init_fuzzy_matcher example_config) =
        Except.ok [((1, "Aspirin"), [(12, "aspirin ", 1), (10, "ASPIRIN", 1)])] := by
  constructor
  · intro scores n
    exact select_top_idx_sorted scores n
  · decide

/-! ### Symmetry of the scorer in its two strings (C8)

`lev-ratio` first: the insert/delete distance is symmetric. -/

theorem indel_dist_symm_aux : ∀ (n : Nat) (xs ys : List Char), xs.length + ys.length ≤ n →
    indel_dist xs ys = indel_dist ys xs := by
  intro n
  induction n with
  | zero =>
    intro xs ys h
    cases xs <;> cases ys <;> simp_all [indel_dist]
  | succ n ih =>
    intro xs ys h
    match xs, ys with
    | [], ys => cases ys <;> simp [indel_dist]
    | x :: xs, [] => simp [indel_dist]
    | x :: xs, y :: ys =>
      simp only [List.length_cons] at h
      by_cases hxy : x = y
      · subst hxy
        simp only [indel_dist, if_pos rfl]
        exact ih xs ys (by omega)
      · rw [indel_dist, indel_dist, if_neg hxy, if_neg (Ne.symm hxy),
          ih xs (y :: ys) (by simp; omega), ih (x :: xs) ys (by simp; omega),
          Nat.min_comm]

theorem indel_dist_symm (xs ys : List Char) : indel_dist xs ys = indel_dist ys xs :=
  indel_dist_symm_aux (xs.length + ys.length) xs ys le_rfl

theorem ratio_sim_symm (s1 s2 : List Char) : ratio_sim s1 s2 = ratio_sim s2 s1 := by
  unfold ratio_sim
  rw [indel_dist_symm, Nat.add_comm s1.length, add_comm (s1.length : ℚ)]

theorem shared_lead_len_symm : ∀ (s1 s2 : List Char),
    shared_lead_len s1 s2 = shared_lead_len s2 s1
  | [], [] => rfl
  | [], _ :: _ => rfl
  | _ :: _, [] => rfl
  | a :: xs, b :: ys => by
    by_cases h : a = b
    · subst h
      simp [shared_lead_len, shared_lead_len_symm xs ys]
    · simp [shared_lead_len, h, Ne.symm h]

/-- The canonical window matching is symmetric: swapping the two position
lists transposes every matched pair. -/
theorem tp_match_symm_aux (w : Nat) : ∀ (n : Nat) (ps qs : List Nat),
    ps.length + qs.length ≤ n →
    tp_match w qs ps = (tp_match w ps qs).map Prod.swap := by
  intro n
  induction n with
  | zero =>
    intro ps qs h
    cases ps <;> cases qs <;> simp_all [tp_match]
  | succ n ih =>
    intro ps qs h
    match ps, qs with
    | [], qs => cases qs <;> simp [tp_match]
    | p :: ps, [] => simp [tp_match]
    | p :: ps, q :: qs =>
      simp only [List.length_cons] at h
      by_cases h1 : q + w < p
      · have h2 : ¬ (p + w < q) := by omega
        have h3 : ¬ (p ≤ q + w) := by omega
        rw [tp_match, tp_match, if_neg h2, if_neg h3, if_pos h1]
        exact ih (p :: ps) qs (by simp; omega)
      · by_cases h2 : q ≤ p + w
        · have h3 : ¬ (p + w < q) := by omega
          have h4 : p ≤ q + w := by omega
          rw [tp_match, tp_match, if_neg h3, if_pos h4, if_neg h1, if_pos h2, List.map_cons]
          exact congrArg (List.cons (q, p)) (ih ps qs (by omega))
        · have h3 : p + w < q := by omega
          rw [tp_match, tp_match, if_pos h3, if_neg h1, if_neg h2]
          exact ih ps (q :: qs) (by simp; omega)

theorem tp_match_symm (w : Nat) (ps qs : List Nat) :
    tp_match w qs ps = (tp_match w ps qs).map Prod.swap :=
  tp_match_symm_aux w (ps.length + qs.length) ps qs le_rfl

/-- Discarding the unreachable front of the second list does not change
the canonical matching. -/
theorem tp_match_dropWhile (w : Nat) (p : Nat) (ps : List Nat) : ∀ qs : List Nat,
    tp_match w (p :: ps) qs =
      tp_match w (p :: ps) (qs.dropWhile (fun q => decide (q + w < p))) := by
  intro qs
  induction qs with
  | nil => rfl
  | cons q qs ihq =>
    by_cases h : q + w < p
    · rw [tp_match, if_pos h, List.dropWhile_cons_of_pos (by simpa using h)]
      exact ihq
    · rw [List.dropWhile_cons_of_neg (by simpa using h)]

/-! ### Characterizing one step of the Jaro scan -/

theorem match_candidates_mem (s2 : List Char) (w : Nat) (c : Char) (i : Nat)
    (used : List Nat) (j : Nat) :
    j ∈ match_candidates s2 w c i used ↔
      (j < s2.length ∧ i - w ≤ j ∧ j ≤ i + w ∧ charAt s2 j = c ∧ j ∉ used) := by
  simp [match_candidates, List.mem_filter, List.mem_range, and_assoc]

theorem match_candidates_sorted (s2 : List Char) (w : Nat) (c : Char) (i : Nat)
    (used : List Nat) : List.Pairwise (· < ·) (match_candidates s2 w c i used) :=
  (List.pairwise_lt_range _).filter _

theorem find_match_eq_some_iff (s2 : List Char) (w : Nat) (c : Char) (i : Nat)
    (used : List Nat) (j : Nat) :
    find_match s2 w c i used = some j ↔
      j ∈ match_candidates s2 w c i used ∧
        ∀ j' ∈ match_candidates s2 w c i used, j ≤ j' := by
  unfold find_match
  constructor
  · intro h
    obtain ⟨t, ht⟩ := List.head?_eq_some_iff.mp h
    have hsort := match_candidates_sorted s2 w c i used
    rw [ht] at hsort
    refine ⟨by rw [ht]; exact List.mem_cons_self _ _, ?_⟩
    intro j' hj'
    rw [ht] at hj'
    rcases List.mem_cons.mp hj' with rfl | hj'
    · exact le_rfl
    · exact le_of_lt (List.rel_of_pairwise_cons hsort hj')
  · rintro ⟨hmem, hmin⟩
    cases hC : match_candidates s2 w c i used with
    | nil => rw [hC] at hmem; exact absurd hmem (List.not_mem_nil _)
    | cons x t =>
      have hx : x ∈ match_candidates s2 w c i used := by
        rw [hC]; exact List.mem_cons_self _ _
      have h1 : j ≤ x := hmin x hx
      have hsort := match_candidates_sorted s2 w c i used
      rw [hC] at hsort hmem
      rcases List.mem_cons.mp hmem with rfl | hj
      · rfl
      · have h2 : x < j := List.rel_of_pairwise_cons hsort hj
        omega

theorem find_match_eq_none_iff (s2 : List Char) (w : Nat) (c : Char) (i : Nat)
    (used : List Nat) :
    find_match s2 w c i used = none ↔ match_candidates s2 w c i used = [] := by
  simp [find_match, List.head?_eq_none_iff]

theorem mem_dropWhile_of_neg {β : Type} (p : β → Bool) :
    ∀ (l : List β) (x : β), x ∈ l → p x = false → x ∈ l.dropWhile p := by
  intro l
  induction l with
  | nil => intro x hx _; exact absurd hx (List.not_mem_nil x)
  | cons y t ih =>
    intro x hx hpx
    by_cases hy : p y
    · rw [List.dropWhile_cons_of_pos hy]
      rcases List.mem_cons.mp hx with rfl | hx
      · exact absurd hy (by simp [hpx])
      · exact ih x hx hpx
    · rw [List.dropWhile_cons_of_neg (by simpa using hy)]
      exact hx

/-- On an increasing list, every survivor of dropping the sub-window
front is itself not below the window. -/
theorem dropWhile_low_all_ge (w i : Nat) : ∀ l : List Nat, List.Pairwise (· < ·) l →
    ∀ x ∈ l.dropWhile (fun q => decide (q + w < i)), ¬ (x + w < i) := by
  intro l
  induction l with
  | nil => intro _ x hx; exact absurd hx (List.not_mem_nil x)
  | cons y t ih =>
    intro hs x hx
    by_cases hy : y + w < i
    · rw [List.dropWhile_cons_of_pos (by simpa using hy)] at hx
      exact ih hs.of_cons x hx
    · rw [List.dropWhile_cons_of_neg (by simpa using hy)] at hx
      rcases List.mem_cons.mp hx with rfl | hx
      · exact hy
      · have h2 : y < x := List.rel_of_pairwise_cons hs hx
        omega

/-! ### Shape facts about the Jaro scan output -/

theorem scan_matches_bounds (s2 : List Char) (w : Nat) :
    ∀ (rest : List Char) (i : Nat) (used : List Nat) (pr : Nat × Nat),
      pr ∈ scan_matches s2 w rest i used →
      i ≤ pr.1 ∧ pr.1 < i + rest.length ∧ pr.2 < s2.length ∧ pr.2 ∉ used := by
  intro rest
  induction rest with
  | nil => intro i used pr h; exact absurd h (List.not_mem_nil pr)
  | cons c0 rest ih =>
    intro i used pr h
    simp only [scan_matches] at h
    cases hf : find_match s2 w c0 i used with
    | some j =>
      rw [hf] at h
      rcases List.mem_cons.mp h with rfl | h
      · have hj := (match_candidates_mem s2 w c0 i used j).mp
          ((find_match_eq_some_iff s2 w c0 i used j).mp hf).1
        exact ⟨le_rfl, by simp, hj.1, hj.2.2.2.2⟩
      · obtain ⟨h1, h2, h3, h4⟩ := ih (i + 1) (j :: used) pr h
        exact ⟨by omega, by simp only [List.length_cons] at h2 ⊢; omega, h3,
          fun hu => h4 (List.mem_cons_of_mem _ hu)⟩
    | none =>
      rw [hf] at h
      obtain ⟨h1, h2, h3, h4⟩ := ih (i + 1) used pr h
      exact ⟨by omega, by simp only [List.length_cons] at h2 ⊢; omega, h3, h4⟩

theorem scan_matches_fst_lt (s2 : List Char) (w : Nat) :
    ∀ (rest : List Char) (i : Nat) (used : List Nat),
      List.Pairwise (fun a b : Nat × Nat => a.1 < b.1) (scan_matches s2 w rest i used) := by
  intro rest
  induction rest with
  | nil => intro i used; simp [scan_matches]
  | cons c0 rest ih =>
    intro i used
    simp only [scan_matches]
    cases hf : find_match s2 w c0 i used with
    | some j =>
      refine List.Pairwise.cons ?_ (ih (i + 1) (j :: used))
      intro b hb
      have hbb := scan_matches_bounds s2 w rest (i + 1) (j :: used) b hb
      show i < b.1
      omega
    | none => exact ih (i + 1) used

theorem scan_matches_snd_ne (s2 : List Char) (w : Nat) :
    ∀ (rest : List Char) (i : Nat) (used : List Nat),
      List.Pairwise (fun a b : Nat × Nat => a.2 ≠ b.2) (scan_matches s2 w rest i used) := by
  intro rest
  induction rest with
  | nil => intro i used; simp [scan_matches]
  | cons c0 rest ih =>
    intro i used
    simp only [scan_matches]
    cases hf : find_match s2 w c0 i used with
    | some j =>
      refine List.Pairwise.cons ?_ (ih (i + 1) (j :: used))
      intro b hb
      have hbb := scan_matches_bounds s2 w rest (i + 1) (j :: used) b hb
      show j ≠ b.2
      intro hjb
      exact hbb.2.2.2 (hjb ▸ List.mem_cons_self _ _)
    | none => exact ih (i + 1) used

theorem tp_match_nil_right (w : Nat) (ps : List Nat) : tp_match w ps [] = [] := by
  cases ps <;> simp [tp_match]

theorem occAt_cons_self (a : Char) (l : List Char) (i : Nat) :
    occAt (a :: l) i a = i :: occAt l (i + 1) a := by
  simp [occAt]

theorem occAt_cons_ne (a c : Char) (l : List Char) (i : Nat) (h : a ≠ c) :
    occAt (a :: l) i c = occAt l (i + 1) c := by
  simp [occAt, h]

/-- The decomposition theorem: a pair is produced by the greedy Jaro scan
exactly when it is produced, for the character class of some `c`, by the
canonical window matching of the unprocessed occurrence positions of `c`
against the still-reachable positions recorded by the invariant. -/
theorem scan_matches_mem_iff (s2 : List Char) (w : Nat) :
    ∀ (rest : List Char) (i : Nat) (used : List Nat) (reach : Char → List Nat),
      ReachInv s2 w i used reach →
      ∀ pr : Nat × Nat,
        (pr ∈ scan_matches s2 w rest i used ↔
          ∃ c, pr ∈ tp_match w (occAt rest i c) (reach c)) := by
  intro rest
  induction rest with
  | nil =>
    intro i used reach _ pr
    simp [scan_matches, occAt, tp_match]
  | cons c0 rest ih =>
    intro i used reach hInv pr
    obtain ⟨hs0, hsound0, hcomp0⟩ := hInv c0
    have hDall := dropWhile_low_all_ge w i (reach c0) hs0
    have hDsub : List.Sublist ((reach c0).dropWhile (fun q => decide (q + w < i))) (reach c0) :=
      List.dropWhile_sublist _
    have hDs : List.Pairwise (· < ·) ((reach c0).dropWhile (fun q => decide (q + w < i))) :=
      hs0.sublist hDsub
    have hcand : ∀ x, x ∈ match_candidates s2 w c0 i used ↔
        (x ∈ (reach c0).dropWhile (fun q => decide (q + w < i)) ∧ x ≤ i + w) := by
      intro x
      rw [match_candidates_mem]
      constructor
      · rintro ⟨hxn, hxlo, hxhi, hxc, hxu⟩
        have hxr : x ∈ reach c0 := hcomp0 x hxn hxc hxu (by omega)
        refine ⟨mem_dropWhile_of_neg _ _ x hxr ?_, hxhi⟩
        simp only [decide_eq_false_iff_not]
        omega
      · rintro ⟨hxD, hxhi⟩
        have hxr : x ∈ reach c0 := hDsub.mem hxD
        obtain ⟨hxn, hxc, hxu⟩ := hsound0 x hxr
        have hxlo := hDall x hxD
        exact ⟨hxn, by omega, hxhi, hxc, hxu⟩
    cases hD : (reach c0).dropWhile (fun q => decide (q + w < i)) with
    | nil =>
      have hfm : find_match s2 w c0 i used = none := by
        rw [find_match_eq_none_iff, List.eq_nil_iff_forall_not_mem]
        intro x hx
        rcases (hcand x).mp hx with ⟨hxD, _⟩
        rw [hD] at hxD
        exact absurd hxD (List.not_mem_nil x)
      have hc0eq : tp_match w (occAt (c0 :: rest) i c0) (reach c0) = [] := by
        rw [occAt_cons_self, tp_match_dropWhile, hD, tp_match_nil_right]
      have hInv' : ReachInv s2 w (i + 1) used
          (fun c => if c = c0 then [] else reach c) := by
        intro c
        by_cases hc : c = c0
        · have hX : (fun c' => if c' = c0 then ([] : List Nat) else reach c') c = [] := by
            simp [hc]
          rw [hX, hc]
          refine ⟨List.Pairwise.nil, by simp, ?_⟩
          intro q hqn hqc hqu hqw
          exfalso
          have hqr : q ∈ reach c0 := hcomp0 q hqn hqc hqu (by omega)
          have hqD : q ∈ (reach c0).dropWhile (fun q => decide (q + w < i)) :=
            mem_dropWhile_of_neg _ _ q hqr (by simp only [decide_eq_false_iff_not]; omega)
          rw [hD] at hqD
          exact absurd hqD (List.not_mem_nil q)
        · have hX : (fun c' => if c' = c0 then ([] : List Nat) else reach c') c = reach c := by
            simp [hc]
          rw [hX]
          obtain ⟨h1, h2, h3⟩ := hInv c
          exact ⟨h1, h2, fun q hqn hqc hqu hqw => h3 q hqn hqc hqu (by omega)⟩
      simp only [scan_matches, hfm]
      rw [ih (i + 1) used _ hInv' pr]
      apply exists_congr
      intro c
      by_cases hc : c = c0
      · rw [if_pos hc, hc, hc0eq]
        simp [tp_match_nil_right]
      · rw [if_neg hc, occAt_cons_ne c0 c rest i (fun he => hc he.symm)]
    | cons j D' =>
      have hjD : j ∈ (reach c0).dropWhile (fun q => decide (q + w < i)) := by
        rw [hD]; exact List.mem_cons_self _ _
      have hjr : j ∈ reach c0 := hDsub.mem hjD
      obtain ⟨hjn, hjc, hju⟩ := hsound0 j hjr
      have hjlo : ¬ (j + w < i) := hDall j hjD
      have hDs' : List.Pairwise (· < ·) (j :: D') := hD ▸ hDs
      by_cases hj_hi : j ≤ i + w
      · -- the head of the reachable suffix is claimed
        have hfm : find_match s2 w c0 i used = some j := by
          rw [find_match_eq_some_iff]
          refine ⟨(hcand j).mpr ⟨hjD, hj_hi⟩, ?_⟩
          intro j' hj'
          rcases (hcand j').mp hj' with ⟨hj'D, _⟩
          rw [hD] at hj'D
          rcases List.mem_cons.mp hj'D with rfl | hj'D'
          · exact le_rfl
          · exact le_of_lt (List.rel_of_pairwise_cons hDs' hj'D')
        have hc0eq : tp_match w (occAt (c0 :: rest) i c0) (reach c0) =
            (i, j) :: tp_match w (occAt rest (i + 1) c0) D' := by
          rw [occAt_cons_self, tp_match_dropWhile, hD, tp_match, if_neg hjlo, if_pos hj_hi]
        have hInv' : ReachInv s2 w (i + 1) (j :: used)
            (fun c => if c = c0 then D' else reach c) := by
          intro c
          by_cases hc : c = c0
          · have hX : (fun c' => if c' = c0 then D' else reach c') c = D' := by
              simp [hc]
            rw [hX, hc]
            refine ⟨hDs'.of_cons, ?_, ?_⟩
            · intro q hq
              have hqD : q ∈ (reach c0).dropWhile (fun q => decide (q + w < i)) := by
                rw [hD]; exact List.mem_cons_of_mem _ hq
              obtain ⟨hqn, hqc, hqu⟩ := hsound0 q (hDsub.mem hqD)
              have hqj : j < q := List.rel_of_pairwise_cons hDs' hq
              refine ⟨hqn, hqc, ?_⟩
              intro hmem
              rcases List.mem_cons.mp hmem with rfl | hmem
              · omega
              · exact hqu hmem
            · intro q hqn hqc hqu hqw
              have hqu' : q ∉ used := fun hq => hqu (List.mem_cons_of_mem _ hq)
              have hqj : q ≠ j := fun he => hqu (he ▸ List.mem_cons_self _ _)
              have hqr : q ∈ reach c0 := hcomp0 q hqn hqc hqu' (by omega)
              have hqD : q ∈ (reach c0).dropWhile (fun q => decide (q + w < i)) :=
                mem_dropWhile_of_neg _ _ q hqr (by simp only [decide_eq_false_iff_not]; omega)
              rw [hD] at hqD
              rcases List.mem_cons.mp hqD with rfl | hqD'
              · exact absurd rfl hqj
              · exact hqD'
          · have hX : (fun c' => if c' = c0 then D' else reach c') c = reach c := by
              simp [hc]
            rw [hX]
            obtain ⟨h1, h2, h3⟩ := hInv c
            refine ⟨h1, ?_, ?_⟩
            · intro q hq
              obtain ⟨hqn, hqc, hqu⟩ := h2 q hq
              refine ⟨hqn, hqc, ?_⟩
              intro hmem
              rcases List.mem_cons.mp hmem with rfl | hmem
              · exact hc (hqc.symm.trans hjc)
              · exact hqu hmem
            · intro q hqn hqc hqu hqw
              exact h3 q hqn hqc (fun hq => hqu (List.mem_cons_of_mem _ hq)) (by omega)
        simp only [scan_matches, hfm]
        rw [List.mem_cons, ih (i + 1) (j :: used) _ hInv' pr]
        constructor
        · rintro (rfl | ⟨c, hc⟩)
          · exact ⟨c0, by rw [hc0eq]; exact List.mem_cons_self _ _⟩
          · by_cases hcc : c = c0
            · rw [if_pos hcc, hcc] at hc
              exact ⟨c0, by rw [hc0eq]; exact List.mem_cons_of_mem _ hc⟩
            · rw [if_neg hcc] at hc
              exact ⟨c, by rwa [occAt_cons_ne c0 c rest i (fun he => hcc he.symm)]⟩
        · rintro ⟨c, hc⟩
          by_cases hcc : c = c0
          · rw [hcc, hc0eq] at hc
            rcases List.mem_cons.mp hc with rfl | hc
            · exact Or.inl rfl
            · refine Or.inr ⟨c0, ?_⟩
              rw [if_pos rfl]
              exact hc
          · rw [occAt_cons_ne c0 c rest i (fun he => hcc he.symm)] at hc
            refine Or.inr ⟨c, ?_⟩
            rw [if_neg hcc]
            exact hc
      · -- the whole reachable suffix is beyond the window
        have hfm : find_match s2 w c0 i used = none := by
          rw [find_match_eq_none_iff, List.eq_nil_iff_forall_not_mem]
          intro x hx
          rcases (hcand x).mp hx with ⟨hxD, hxhi⟩
          rw [hD] at hxD
          have hjx : j ≤ x := by
            rcases List.mem_cons.mp hxD with rfl | hxD'
            · exact le_rfl
            · exact le_of_lt (List.rel_of_pairwise_cons hDs' hxD')
          omega
        have hc0eq : tp_match w (occAt (c0 :: rest) i c0) (reach c0) =
            tp_match w (occAt rest (i + 1) c0) (j :: D') := by
          rw [occAt_cons_self, tp_match_dropWhile, hD, tp_match, if_neg hjlo, if_neg hj_hi]
        have hInv' : ReachInv s2 w (i + 1) used
            (fun c => if c = c0 then j :: D' else reach c) := by
          intro c
          by_cases hc : c = c0
          · have hX : (fun c' => if c' = c0 then j :: D' else reach c') c = j :: D' := by
              simp [hc]
            rw [hX, hc]
            refine ⟨hDs', ?_, ?_⟩
            · intro q hq
              exact hsound0 q (hDsub.mem (hD ▸ hq))
            · intro q hqn hqc hqu hqw
              have hqr : q ∈ reach c0 := hcomp0 q hqn hqc hqu (by omega)
              have hqD : q ∈ (reach c0).dropWhile (fun q => decide (q + w < i)) :=
                mem_dropWhile_of_neg _ _ q hqr (by simp only [decide_eq_false_iff_not]; omega)
              rwa [hD] at hqD
          · have hX : (fun c' => if c' = c0 then j :: D' else reach c') c = reach c := by
              simp [hc]
            rw [hX]
            obtain ⟨h1, h2, h3⟩ := hInv c
            exact ⟨h1, h2, fun q hqn hqc hqu hqw => h3 q hqn hqc hqu (by omega)⟩
        simp only [scan_matches, hfm]
        rw [ih (i + 1) used _ hInv' pr]
        apply exists_congr
        intro c
        by_cases hcc : c = c0
        · rw [if_pos hcc, hcc, hc0eq]
        · rw [if_neg hcc, occAt_cons_ne c0 c rest i (fun he => hcc he.symm)]

theorem occAt_mem_iff (c : Char) : ∀ (l : List Char) (i q : Nat),
    q ∈ occAt l i c ↔ ∃ k, k < l.length ∧ q = i + k ∧ charAt l k = c := by
  intro l
  induction l with
  | nil => intro i q; simp [occAt]
  | cons a l ihl =>
    intro i q
    by_cases ha : a = c
    · simp only [occAt, if_pos ha]
      constructor
      · intro h
        rcases List.mem_cons.mp h with rfl | h
        · exact ⟨0, by simp, by simp, by simpa [charAt] using ha⟩
        · obtain ⟨k, hk, hq, hck⟩ := (ihl (i + 1) q).mp h
          refine ⟨k + 1, by simpa using hk, by omega, ?_⟩
          simpa [charAt] using hck
      · rintro ⟨k, hk, rfl, hck⟩
        cases k with
        | zero => simp
        | succ k =>
          refine List.mem_cons_of_mem _ ((ihl (i + 1) (i + (k + 1))).mpr ⟨k, ?_, by omega, ?_⟩)
          · simpa using hk
          · simpa [charAt] using hck
    · simp only [occAt, if_neg ha]
      rw [ihl (i + 1) q]
      constructor
      · rintro ⟨k, hk, rfl, hck⟩
        refine ⟨k + 1, by simpa using hk, by omega, ?_⟩
        simpa [charAt] using hck
      · rintro ⟨k, hk, hq, hck⟩
        cases k with
        | zero => exact absurd (by simpa [charAt] using hck) ha
        | succ k =>
          refine ⟨k, by simpa using hk, by omega, ?_⟩
          simpa [charAt] using hck

theorem occAt_sorted (c : Char) : ∀ (l : List Char) (i : Nat),
    List.Pairwise (· < ·) (occAt l i c) := by
  intro l
  induction l with
  | nil => intro i; simp [occAt]
  | cons a l ihl =>
    intro i
    by_cases ha : a = c
    · simp only [occAt, if_pos ha]
      refine List.Pairwise.cons ?_ (ihl (i + 1))
      intro q hq
      obtain ⟨k, _, rfl, _⟩ := (occAt_mem_iff c l (i + 1) q).mp hq
      omega
    · simp only [occAt, if_neg ha]
      exact ihl (i + 1)

/-- Membership in the Jaro pairs, through the per-character canonical
matchings. -/
theorem jaro_pairs_mem_iff (s1 s2 : List Char) (pr : Nat × Nat) :
    pr ∈ jaro_pairs s1 s2 ↔
      ∃ c, pr ∈ tp_match (search_range s1.length s2.length)
        (occAt s1 0 c) (occAt s2 0 c) := by
  unfold jaro_pairs
  refine scan_matches_mem_iff s2 _ s1 0 [] (fun c => occAt s2 0 c) ?_ pr
  intro c
  refine ⟨occAt_sorted c s2 0, ?_, ?_⟩
  · intro q hq
    obtain ⟨k, hk, hqk, hck⟩ := (occAt_mem_iff c s2 0 q).mp hq
    refine ⟨by omega, ?_, List.not_mem_nil q⟩
    have : q = k := by omega
    rw [this]; exact hck
  · intro q hqn hqc _ _
    exact (occAt_mem_iff c s2 0 q).mpr ⟨q, hqn, by omega, hqc⟩

/-- Transposing the two strings transposes every matched pair. -/
theorem jaro_pairs_swap (s1 s2 : List Char) (pr : Nat × Nat) :
    pr ∈ jaro_pairs s1 s2 ↔ pr.swap ∈ jaro_pairs s2 s1 := by
  rw [jaro_pairs_mem_iff, jaro_pairs_mem_iff]
  have hw : search_range s2.length s1.length = search_range s1.length s2.length := by
    unfold search_range
    rw [Nat.max_comm]
  rw [hw]
  apply exists_congr
  intro c
  rw [tp_match_symm _ (occAt s1 0 c) (occAt s2 0 c), List.mem_map]
  constructor
  · intro h
    exact ⟨pr, h, rfl⟩
  · rintro ⟨x, hx, hxe⟩
    have hxp : x = pr := by
      have := congrArg Prod.swap hxe
      simpa using this
    rwa [hxp] at hx

/-- The flagged positions of the first string of one run are the flagged
positions of the second string of the transposed run. -/
theorem flagged_fst_swap (s1 s2 : List Char) : flagged_fst s1 s2 = flagged_snd s2 s1 := by
  unfold flagged_fst flagged_snd
  apply List.filter_congr
  intro i _
  rw [Bool.eq_iff_iff]
  simp only [List.any_eq_true, decide_eq_true_eq]
  constructor
  · rintro ⟨p, hp, hpe⟩
    exact ⟨p.swap, (jaro_pairs_swap s1 s2 p).mp hp, by simpa using hpe⟩
  · rintro ⟨p, hp, hpe⟩
    exact ⟨p.swap, (jaro_pairs_swap s2 s1 p).mp hp, by simpa using hpe⟩

theorem length_filter_range_of_nodup (n : Nat) (l : List Nat) (hl : l.Nodup)
    (hb : ∀ x ∈ l, x < n) :
    ((List.range n).filter (fun x => l.any (fun y => decide (y = x)))).length = l.length := by
  have hmem : ∀ x, (x ∈ (List.range n).filter (fun x => l.any (fun y => decide (y = x)))
     ↔ x ∈ l) := by
    intro x
    simp only [List.mem_filter, List.mem_range, List.any_eq_true, decide_eq_true_eq]
    constructor
    · rintro ⟨_, y, hy, rfl⟩
      exact hy
    · intro hx
      exact ⟨hb x hx, x, hx, rfl⟩
  have hnd : ((List.range n).filter
      (fun x => l.any (fun y => decide (y = x)))).Nodup := (List.nodup_range n).filter _
  exact ((List.perm_ext_iff_of_nodup hnd hl).mpr hmem).length_eq

theorem flagged_fst_length (s1 s2 : List Char) :
    (flagged_fst s1 s2).length = (jaro_pairs s1 s2).length := by
  have hnd : ((jaro_pairs s1 s2).map Prod.fst).Nodup :=
    List.Pairwise.map Prod.fst (fun a b hab => Nat.ne_of_lt hab)
      (scan_matches_fst_lt s2 _ s1 0 [])
  have hb : ∀ x ∈ (jaro_pairs s1 s2).map Prod.fst, x < s1.length := by
    intro x hx
    obtain ⟨pr, hpr, rfl⟩ := List.mem_map.mp hx
    have := scan_matches_bounds s2 _ s1 0 [] pr hpr
    omega
  have hfun : flagged_fst s1 s2 = (List.range s1.length).filter
      (fun x => ((jaro_pairs s1 s2).map Prod.fst).any (fun y => decide (y = x))) := by
    unfold flagged_fst
    apply List.filter_congr
    intro i _
    rw [Bool.eq_iff_iff]
    simp only [List.any_eq_true, List.mem_map, decide_eq_true_eq]
    constructor
    · rintro ⟨p, hp, hpe⟩
      exact ⟨p.1, ⟨p, hp, rfl⟩, hpe⟩
    · rintro ⟨y, ⟨p, hp, rfl⟩, hpe⟩
      exact ⟨p, hp, hpe⟩
  rw [hfun, length_filter_range_of_nodup _ _ hnd hb, List.length_map]

theorem flagged_snd_length (s1 s2 : List Char) :
    (flagged_snd s1 s2).length = (jaro_pairs s1 s2).length := by
  have hnd : ((jaro_pairs s1 s2).map Prod.snd).Nodup :=
    List.Pairwise.map Prod.snd (fun a b hab => hab)
      (scan_matches_snd_ne s2 _ s1 0 [])
  have hb : ∀ x ∈ (jaro_pairs s1 s2).map Prod.snd, x < s2.length := by
    intro x hx
    obtain ⟨pr, hpr, rfl⟩ := List.mem_map.mp hx
    have := scan_matches_bounds s2 _ s1 0 [] pr hpr
    omega
  have hfun : flagged_snd s1 s2 = (List.range s2.length).filter
      (fun x => ((jaro_pairs s1 s2).map Prod.snd).any (fun y => decide (y = x))) := by
    unfold flagged_snd
    apply List.filter_congr
    intro j _
    rw [Bool.eq_iff_iff]
    simp only [List.any_eq_true, List.mem_map, decide_eq_true_eq]
    constructor
    · rintro ⟨p, hp, hpe⟩
      exact ⟨p.2, ⟨p, hp, rfl⟩, hpe⟩
    · rintro ⟨y, ⟨p, hp, rfl⟩, hpe⟩
      exact ⟨p, hp, hpe⟩
  rw [hfun, length_filter_range_of_nodup _ _ hnd hb, List.length_map]

theorem jaro_m_symm (s1 s2 : List Char) : jaro_m s1 s2 = jaro_m s2 s1 := by
  unfold jaro_m
  rw [flagged_fst_length s1 s2, flagged_fst_swap s2 s1, flagged_snd_length s1 s2]

theorem mismatch_count_comm (l1 l2 : List Char) : mismatch_count l1 l2 = mismatch_count l2 l1 := by
  unfold mismatch_count
  conv_rhs => rw [← List.zip_swap l1 l2]
  rw [List.filter_map, List.length_map]
  congr 1
  apply List.filter_congr
  intro q _
  simp only [Function.comp_apply, Prod.fst_swap, Prod.snd_swap]
  rw [decide_eq_decide]
  exact ne_comm

theorem jaro_t_symm (s1 s2 : List Char) : jaro_t s1 s2 = jaro_t s2 s1 := by
  unfold jaro_t
  rw [flagged_fst_swap s2 s1, ← flagged_fst_swap s1 s2, mismatch_count_comm]

theorem jaro_sim_symm (s1 s2 : List Char) : jaro_sim s1 s2 = jaro_sim s2 s1 := by
  unfold jaro_sim
  by_cases h : s1.length = 0 ∨ s2.length = 0
  · rw [if_pos h, if_pos (Or.symm h)]
  · rw [if_neg h, if_neg (fun hh => h (Or.symm hh))]
    simp only [jaro_m_symm s2 s1, jaro_t_symm s2 s1]
    by_cases hm : jaro_m s1 s2 = 0
    · simp [hm]
    · simp only [if_neg hm]
      ring

theorem jaro_winkler_sim_symm (s1 s2 : List Char) :
    jaro_winkler_sim s1 s2 = jaro_winkler_sim s2 s1 := by
  unfold jaro_winkler_sim
  rw [jaro_sim_symm s2 s1, shared_lead_len_symm s2 s1]

theorem get_jw_symm (s1 s2 : String) :
    get_fuzzy_distance s1 s2 "jaro-winkler" = get_fuzzy_distance s2 s1 "jaro-winkler" := by
  unfold get_fuzzy_distance
  by_cases h1 : is_sentinel (normalize_str s1) <;> by_cases h2 : is_sentinel (normalize_str s2) <;>
    simp [h1, h2, jaro_winkler_sim_symm]

theorem get_ratio_symm (s1 s2 : String) :
    get_fuzzy_distance s1 s2 "lev-ratio" = get_fuzzy_distance s2 s1 "lev-ratio" := by
  unfold get_fuzzy_distance
  by_cases h1 : is_sentinel (normalize_str s1) <;> by_cases h2 : is_sentinel (normalize_str s2) <;>
    simp [h1, h2, ratio_sim_symm]

/-- C8: the scorer is symmetric in its two string arguments for the
Jaro-Winkler and whole-string Levenshtein-ratio metrics. -/
theorem score_symmetric_for_jw_and_lev_ratio (s1 s2 : String) :
    get_fuzzy_distance s1 s2 "jaro-winkler" = get_fuzzy_distance s2 s1 "jaro-winkler" ∧
      get_fuzzy_distance s1 s2 "lev-ratio" = get_fuzzy_distance s2 s1 "lev-ratio" :=
  ⟨get_jw_symm s1 s2, get_ratio_symm s1 s2⟩

end FuzzyMatcherPy
